import Mathlib

/-!
# Verification of the Sierpinski triangle drawer

Shallow embedding of `src/python_guide_55ebb2.py`.  The script's only
algorithmic content is the recursive function `draw_sierpinski`, whose sole
observable effect is a sequence of `draw.polygon([(x1,y1),(x2,y2),(x3,y3)],
fill="black")` calls on the Pillow drawing surface, plus a thin `__main__`
driver that builds an 800×700 image, runs the recursion at level 7 on a fixed
outer triangle, and saves the image once.

We model a point as a pair of integers (the script only ever passes integers:
the driver's constants and `//`-midpoints of integers), a polygon-draw call as
the list of vertices plus the fill colour string, and the whole run of
`draw_sierpinski` as the list of polygon calls it issues, in order.  Python's
`//` is floor division, embedded as `Int.fdiv`.
-/

namespace Sierpinski

/-- A 2D point with integer coordinates, as passed around by the script. -/
abbrev Point : Type := Int × Int

/-- One `draw.polygon(pts, fill=...)` call issued on the Pillow surface. -/
structure PolygonCall where
  pts : List Point
  fill : String
deriving DecidableEq, Repr

/-- Midpoint as the script computes it at lines 41–43:
`(x1 + x2) // 2, (y1 + y2) // 2` with Python's floor division `//`. -/
def midpoint (p q : Point) : Point :=
  ((p.1 + q.1).fdiv 2, (p.2 + q.2).fdiv 2)

/-- The trace of polygon-draw calls issued by `draw_sierpinski` (lines 17–54):
base case at `level ≤ 0` draws the current triangle filled black; otherwise it
recurses into the three corner triangles with `level - 1`, in source order
(corner at p1, corner at p2, corner at p3). -/
def draw_sierpinski (p1 p2 p3 : Point) (level : Int) : List PolygonCall :=
  if level ≤ 0 then
    [⟨[p1, p2, p3], "black"⟩]
  else
    let m12 := midpoint p1 p2
    let m23 := midpoint p2 p3
    let m31 := midpoint p3 p1
    draw_sierpinski p1 m12 m31 (level - 1) ++
    draw_sierpinski m12 p2 m23 (level - 1) ++
    draw_sierpinski m31 m23 p3 (level - 1)
termination_by level.toNat
decreasing_by all_goals omega

/-- Number of calls to `draw_sierpinski` in the call tree (the call itself
plus all recursive descendants), mirroring the recursion structure of
lines 17–54 exactly: a base-case call contributes 1 call, a recursive-step
call contributes itself plus its three children's call trees. -/
def sierpinski_calls (p1 p2 p3 : Point) (level : Int) : ℕ :=
  if level ≤ 0 then 1
  else
    let m12 := midpoint p1 p2
    let m23 := midpoint p2 p3
    let m31 := midpoint p3 p1
    1 + sierpinski_calls p1 m12 m31 (level - 1)
      + sierpinski_calls m12 p2 m23 (level - 1)
      + sierpinski_calls m31 m23 p3 (level - 1)
termination_by level.toNat
decreasing_by all_goals omega

/-- The call tree of `draw_sierpinski`: a leaf for a base-case call
(`level ≤ 0`), a node with the three children in source order otherwise.
Each node records the triangle the call received. -/
inductive CallTree where
  | leaf (p1 p2 p3 : Point)
  | node (p1 p2 p3 : Point) (t1 t2 t3 : CallTree)
deriving DecidableEq, Repr

/-- Build the call tree of `draw_sierpinski p1 p2 p3 level`, following
lines 17–54: children are the corner triangles at p1, p2, p3 with midpoints
as computed at lines 41–43, each at `level - 1`. -/
def build_call_tree (p1 p2 p3 : Point) (level : Int) : CallTree :=
  if level ≤ 0 then
    .leaf p1 p2 p3
  else
    let m12 := midpoint p1 p2
    let m23 := midpoint p2 p3
    let m31 := midpoint p3 p1
    .node p1 p2 p3
      (build_call_tree p1 m12 m31 (level - 1))
      (build_call_tree m12 p2 m23 (level - 1))
      (build_call_tree m31 m23 p3 (level - 1))
termination_by level.toNat
decreasing_by all_goals omega

/-- Depth-first traversal of a call tree in the fixed child order
(corner-p1, corner-p2, corner-p3), collecting the polygon call each leaf
issues. -/
def CallTree.dfsLeaves : CallTree → List PolygonCall
  | .leaf p1 p2 p3 => [⟨[p1, p2, p3], "black"⟩]
  | .node _ _ _ t1 t2 t3 => t1.dfsLeaves ++ t2.dfsLeaves ++ t3.dfsLeaves

/-- The triangles drawn at the leaves of a call tree, as ordered vertex
triples. -/
def CallTree.leafTris : CallTree → List (Point × Point × Point)
  | .leaf p1 p2 p3 => [(p1, p2, p3)]
  | .node _ _ _ t1 t2 t3 => t1.leafTris ++ t2.leafTris ++ t3.leafTris

/-- The central subdivision `(m12, m23, m31)` of a triangle: the inverted
middle triangle that the recursive step skips. -/
def central (p1 p2 p3 : Point) : Point × Point × Point :=
  (midpoint p1 p2, midpoint p2 p3, midpoint p3 p1)

/-- The central subdivisions of every internal (subdividing) call in the
tree.  Every internal node is an ancestor of each leaf below it; the root in
particular is an ancestor of every leaf. -/
def CallTree.internalCentrals : CallTree → List (Point × Point × Point)
  | .leaf _ _ _ => []
  | .node p1 p2 p3 t1 t2 t3 =>
      central p1 p2 p3 ::
        (t1.internalCentrals ++ t2.internalCentrals ++ t3.internalCentrals)

/-- `true` iff no drawn leaf triangle of the run equals the central
subdivision of any internal call of the run (equality of ordered vertex
triples). -/
def no_central_drawn (p1 p2 p3 : Point) (level : Int) : Bool :=
  let t := build_call_tree p1 p2 p3 level
  t.internalCentrals.all (fun c => ! t.leafTris.contains c)

/-- Structural-recursion mirror of `build_call_tree` for non-negative levels,
indexed by the natural number the level denotes; used to evaluate the
well-founded definition on concrete inputs (they agree by
`build_call_tree_eq_natTree`). -/
def build_call_treeNat (p1 p2 p3 : Point) : ℕ → CallTree
  | 0 => .leaf p1 p2 p3
  | n + 1 =>
      let m12 := midpoint p1 p2
      let m23 := midpoint p2 p3
      let m31 := midpoint p3 p1
      .node p1 p2 p3
        (build_call_treeNat p1 m12 m31 n)
        (build_call_treeNat m12 p2 m23 n)
        (build_call_treeNat m31 m23 p3 n)

/- ### The `__main__` driver (lines 58–95) -/

/-- `image_width = 800` (line 60). -/
def image_width : Int := 800

/-- `image_height = 700` (line 61). -/
def image_height : Int := 700

/-- `recursion_level = 7` (line 64). -/
def recursion_level : Int := 7

/-- The outer triangle vertices of lines 76–80, computed from the constants
exactly as the source does (`//` is floor division). -/
def outer_triangle_vertices : List Point :=
  [(image_width.fdiv 2, 50),
   (50, image_height - 50),
   (image_width - 50, image_height - 50)]

/-- An observable event of the driver: a polygon drawn on the surface, or the
image saved to a path. -/
inductive MainEvent where
  | draw (c : PolygonCall)
  | save (path : String)
deriving DecidableEq, Repr

/-- Whether an event is a save. -/
def MainEvent.isSave : MainEvent → Bool
  | .draw _ => false
  | .save _ => true

/-- The sequence of observable events of the `__main__` driver (lines 58–95):
all polygon draws issued by the single top-level `draw_sierpinski` call on the
unpacked outer-triangle vertices at `recursion_level`, followed by the single
`img.save("sierpinski_triangle.png")`. -/
def main_events : List MainEvent :=
  (draw_sierpinski (image_width.fdiv 2, 50) (50, image_height - 50)
      (image_width - 50, image_height - 50) recursion_level).map .draw
  ++ [.save "sierpinski_triangle.png"]

/-- Running `draw_sierpinski` on a surface that has already received the draw
calls `s`: the surface afterwards holds `s` followed by the trace of the call.
Two fresh identical surfaces are two equal lists `s = t`. -/
def run_on (s : List PolygonCall) (p1 p2 p3 : Point) (level : Int) :
    List PolygonCall :=
  s ++ draw_sierpinski p1 p2 p3 level

/- ### Unfolding lemmas -/

/-- Base case of the trace: at `level ≤ 0` exactly one black triangle. -/
lemma draw_sierpinski_of_nonpos (p1 p2 p3 : Point) {level : Int}
    (h : level ≤ 0) :
    draw_sierpinski p1 p2 p3 level = [⟨[p1, p2, p3], "black"⟩] := by
  rw [draw_sierpinski, if_pos h]

/-- Recursive case of the trace: at `0 < level` the concatenation of the
three corner children's traces, in source order. -/
lemma draw_sierpinski_of_pos (p1 p2 p3 : Point) {level : Int}
    (h : 0 < level) :
    draw_sierpinski p1 p2 p3 level =
      draw_sierpinski p1 (midpoint p1 p2) (midpoint p3 p1) (level - 1) ++
      draw_sierpinski (midpoint p1 p2) p2 (midpoint p2 p3) (level - 1) ++
      draw_sierpinski (midpoint p3 p1) (midpoint p2 p3) p3 (level - 1) := by
  rw [draw_sierpinski, if_neg (not_le.mpr h)]

/-- Base case of the call count. -/
lemma sierpinski_calls_of_nonpos (p1 p2 p3 : Point) {level : Int}
    (h : level ≤ 0) : sierpinski_calls p1 p2 p3 level = 1 := by
  rw [sierpinski_calls, if_pos h]

/-- Recursive case of the call count. -/
lemma sierpinski_calls_of_pos (p1 p2 p3 : Point) {level : Int}
    (h : 0 < level) :
    sierpinski_calls p1 p2 p3 level =
      1 + sierpinski_calls p1 (midpoint p1 p2) (midpoint p3 p1) (level - 1)
        + sierpinski_calls (midpoint p1 p2) p2 (midpoint p2 p3) (level - 1)
        + sierpinski_calls (midpoint p3 p1) (midpoint p2 p3) p3 (level - 1) := by
  rw [sierpinski_calls, if_neg (not_le.mpr h)]

/-- Base case of the call tree. -/
lemma build_call_tree_of_nonpos (p1 p2 p3 : Point) {level : Int}
    (h : level ≤ 0) : build_call_tree p1 p2 p3 level = .leaf p1 p2 p3 := by
  rw [build_call_tree, if_pos h]

/-- Recursive case of the call tree. -/
lemma build_call_tree_of_pos (p1 p2 p3 : Point) {level : Int}
    (h : 0 < level) :
    build_call_tree p1 p2 p3 level =
      .node p1 p2 p3
        (build_call_tree p1 (midpoint p1 p2) (midpoint p3 p1) (level - 1))
        (build_call_tree (midpoint p1 p2) p2 (midpoint p2 p3) (level - 1))
        (build_call_tree (midpoint p3 p1) (midpoint p2 p3) p3 (level - 1)) := by
  rw [build_call_tree, if_neg (not_le.mpr h)]

/-- The well-founded call tree agrees with its structural mirror on
natural-number levels. -/
lemma build_call_tree_eq_natTree (d : ℕ) :
    ∀ p1 p2 p3 : Point,
      build_call_tree p1 p2 p3 (d : Int) = build_call_treeNat p1 p2 p3 d := by
  induction d with
  | zero =>
      intro p1 p2 p3
      rw [build_call_tree_of_nonpos _ _ _ (by norm_num)]
      rfl
  | succ n ih =>
      intro p1 p2 p3
      have hpos : (0 : Int) < ((n + 1 : ℕ) : Int) := by positivity
      have hstep : ((n + 1 : ℕ) : Int) - 1 = (n : Int) := by push_cast; ring
      rw [build_call_tree_of_pos _ _ _ hpos, hstep, ih, ih, ih]
      rfl

/-- The trace of `draw_sierpinski` at a natural-number level `d` has length
`3 ^ d`. -/
lemma draw_sierpinski_length (d : ℕ) :
    ∀ p1 p2 p3 : Point, (draw_sierpinski p1 p2 p3 (d : Int)).length = 3 ^ d := by
  induction d with
  | zero =>
      intro p1 p2 p3
      rw [draw_sierpinski_of_nonpos _ _ _ (by norm_num)]
      rfl
  | succ n ih =>
      intro p1 p2 p3
      have hpos : (0 : Int) < ((n + 1 : ℕ) : Int) := by positivity
      have hstep : ((n + 1 : ℕ) : Int) - 1 = (n : Int) := by push_cast; ring
      rw [draw_sierpinski_of_pos _ _ _ hpos, hstep]
      simp only [List.length_append, ih]
      ring

/-- The call count of `draw_sierpinski` at a natural-number level `d`
satisfies `2 * calls + 1 = 3 ^ (d + 1)`. -/
lemma sierpinski_calls_closed (d : ℕ) :
    ∀ p1 p2 p3 : Point,
      2 * sierpinski_calls p1 p2 p3 (d : Int) + 1 = 3 ^ (d + 1) := by
  induction d with
  | zero =>
      intro p1 p2 p3
      rw [sierpinski_calls_of_nonpos _ _ _ (by norm_num)]
      norm_num
  | succ n ih =>
      intro p1 p2 p3
      have hpos : (0 : Int) < ((n + 1 : ℕ) : Int) := by positivity
      have hstep : ((n + 1 : ℕ) : Int) - 1 = (n : Int) := by push_cast; ring
      rw [sierpinski_calls_of_pos _ _ _ hpos, hstep]
      have h1 := ih p1 (midpoint p1 p2) (midpoint p3 p1)
      have h2 := ih (midpoint p1 p2) p2 (midpoint p2 p3)
      have h3 := ih (midpoint p3 p1) (midpoint p2 p3) p3
      have hp : (3 : ℕ) ^ (n + 1 + 1) = 3 * 3 ^ (n + 1) := by ring
      omega



/-- The trace equals the depth-first leaf traversal of the call tree, for
every integer level (fuel-bounded strong induction on `level.toNat`). -/
lemma draw_eq_dfsLeaves_aux (n : ℕ) :
    ∀ (level : Int), level.toNat ≤ n → ∀ p1 p2 p3 : Point,
      draw_sierpinski p1 p2 p3 level =
        (build_call_tree p1 p2 p3 level).dfsLeaves := by
  induction n with
  | zero =>
      intro level hlev p1 p2 p3
      have h : level ≤ 0 := by omega
      rw [draw_sierpinski_of_nonpos _ _ _ h, build_call_tree_of_nonpos _ _ _ h]
      rfl
  | succ n ih =>
      intro level hlev p1 p2 p3
      rcases le_or_lt level 0 with h | h
      · rw [draw_sierpinski_of_nonpos _ _ _ h, build_call_tree_of_nonpos _ _ _ h]
        rfl
      · have hfuel : (level - 1).toNat ≤ n := by omega
        rw [draw_sierpinski_of_pos _ _ _ h, build_call_tree_of_pos _ _ _ h,
          ih _ hfuel, ih _ hfuel, ih _ hfuel]
        rfl

/-- `true` iff every leaf triangle of the tree has `x2 - x1 < 0`; a shallow
(tree-depth) recursion usable for evaluation on large trees. -/
def CallTree.leavesDxNeg : CallTree → Bool
  | .leaf p1 p2 _ => decide (p2.1 - p1.1 < 0)
  | .node _ _ _ t1 t2 t3 => t1.leavesDxNeg && t2.leavesDxNeg && t3.leavesDxNeg

/-- `true` iff every internal node's central subdivision has `x2 - x1 > 0`. -/
def CallTree.centralsDxPos : CallTree → Bool
  | .leaf _ _ _ => true
  | .node p1 p2 p3 t1 t2 t3 =>
      decide (0 < (central p1 p2 p3).2.1.1 - (central p1 p2 p3).1.1) &&
      t1.centralsDxPos && t2.centralsDxPos && t3.centralsDxPos

/-- Soundness of `leavesDxNeg` with respect to the leaf-triangle list. -/
lemma leafTris_dx_neg : ∀ t : CallTree, t.leavesDxNeg = true →
    ∀ a ∈ t.leafTris, a.2.1.1 - a.1.1 < 0 := by
  intro t
  induction t with
  | leaf p1 p2 p3 =>
      intro h a ha
      simp [CallTree.leafTris] at ha
      simp [CallTree.leavesDxNeg] at h
      subst ha
      simpa using h
  | node p1 p2 p3 t1 t2 t3 ih1 ih2 ih3 =>
      intro h a ha
      simp only [CallTree.leavesDxNeg, Bool.and_eq_true] at h
      obtain ⟨⟨h1, h2⟩, h3⟩ := h
      simp only [CallTree.leafTris, List.mem_append] at ha
      rcases ha with (ha | ha) | ha
      · exact ih1 h1 a ha
      · exact ih2 h2 a ha
      · exact ih3 h3 a ha

/-- Soundness of `centralsDxPos` with respect to the central list. -/
lemma internalCentrals_dx_pos : ∀ t : CallTree, t.centralsDxPos = true →
    ∀ c ∈ t.internalCentrals, 0 < c.2.1.1 - c.1.1 := by
  intro t
  induction t with
  | leaf p1 p2 p3 =>
      intro h c hc
      simp [CallTree.internalCentrals] at hc
  | node p1 p2 p3 t1 t2 t3 ih1 ih2 ih3 =>
      intro h c hc
      simp only [CallTree.centralsDxPos, Bool.and_eq_true] at h
      obtain ⟨⟨⟨h0, h1⟩, h2⟩, h3⟩ := h
      simp only [CallTree.internalCentrals, List.mem_cons, List.mem_append] at hc
      rcases hc with hc | (hc | hc) | hc
      · subst hc
        simpa using h0
      · exact ih1 h1 c hc
      · exact ih2 h2 c hc
      · exact ih3 h3 c hc

/-- If a function `f` is negative on every member of `L` and positive on
every member of `C`, then no member of `C` occurs in `L`. -/
lemma all_not_contains_of_sep {α : Type} [BEq α] [LawfulBEq α] (f : α → Int)
    (C L : List α) (hC : ∀ c ∈ C, 0 < f c) (hL : ∀ a ∈ L, f a < 0) :
    C.all (fun c => ! L.contains c) = true := by
  rw [List.all_eq_true]
  intro c hc
  simp only [List.contains, List.elem_eq_mem, Bool.not_eq_true',
    decide_eq_false_iff_not]
  intro hmem
  have h1 := hC c hc
  have h2 := hL c hmem
  omega

/-- Combined: a tree whose leaves all have negative dx and whose centrals all
have positive dx draws no central of any internal node. -/
lemma no_central_of_scans (t : CallTree) (h1 : t.leavesDxNeg = true)
    (h2 : t.centralsDxPos = true) :
    t.internalCentrals.all (fun c => ! t.leafTris.contains c) = true :=
  all_not_contains_of_sep (fun a : Point × Point × Point => a.2.1.1 - a.1.1)
    _ _ (internalCentrals_dx_pos t h2) (leafTris_dx_neg t h1)


/-- Floor characterization of the midpoint: each coordinate of
`midpoint p q` is the floor of half the coordinate sum. -/
lemma midpoint_floor (p q : Point) :
    2 * (midpoint p q).1 ≤ p.1 + q.1 ∧ p.1 + q.1 < 2 * (midpoint p q).1 + 2 ∧
    2 * (midpoint p q).2 ≤ p.2 + q.2 ∧ p.2 + q.2 < 2 * (midpoint p q).2 + 2 := by
  have h1 : (p.1 + q.1).fdiv 2 = (p.1 + q.1) / 2 :=
    Int.fdiv_eq_ediv _ (by norm_num)
  have h2 : (p.2 + q.2).fdiv 2 = (p.2 + q.2) / 2 :=
    Int.fdiv_eq_ediv _ (by norm_num)
  simp only [midpoint, h1, h2]
  omega

/-- Draw events contribute nothing to the save filter. -/
lemma filter_isSave_map_draw (l : List PolygonCall) :
    (l.map MainEvent.draw).filter MainEvent.isSave = [] := by
  induction l with
  | nil => rfl
  | cons a l ih => simp [MainEvent.isSave, ih]

/-- The last element of a list extended by a singleton. -/
lemma getLast_append_singleton {α : Type} (l : List α) (e : α) :
    (l ++ [e]).getLast? = some e := by
  induction l with
  | nil => rfl
  | cons a l ih =>
      rw [List.cons_append, List.getLast?_cons, ih]
      cases l <;> rfl

/- ### The claims -/

/-- C1: for every depth `d ≥ 0` and every triangle `(p1, p2, p3)`, running
`draw_sierpinski` with that triangle and level `d` issues exactly `3 ^ d`
draw-polygon (leaf triangle) calls on the surface. -/
theorem claim_C1_leaf_count (p1 p2 p3 : Point) (d : ℕ) :
    (draw_sierpinski p1 p2 p3 (d : Int)).length = 3 ^ d :=
  draw_sierpinski_length d p1 p2 p3

/-- C2: for every triangle `(p1, p2, p3)`, calling `draw_sierpinski` with
level 0 draws exactly one filled triangle whose vertices are exactly
`(p1, p2, p3)`, filled with the fixed colour black, makes no recursive call
(the call tree consists of the single top-level call), and returns. -/
theorem claim_C2_depth_zero (p1 p2 p3 : Point) :
    draw_sierpinski p1 p2 p3 0 = [⟨[p1, p2, p3], "black"⟩] ∧
    sierpinski_calls p1 p2 p3 0 = 1 :=
  ⟨draw_sierpinski_of_nonpos _ _ _ le_rfl,
   sierpinski_calls_of_nonpos _ _ _ le_rfl⟩

/-- C3: the midpoint computed at each recursive step is the floor (toward
negative infinity, not nearest) of half the coordinate sums — each coordinate
`m` satisfies `2m ≤ sum < 2m + 2`, which pins `m = (sum) div 2` with floor
division; in particular `midpoint (1,1) (2,2) = (1,1)`, and on negative sums
it still rounds down, e.g. `midpoint (0,0) (-1,-1) = (-1,-1)`. -/
theorem claim_C3_midpoint_floor :
    (∀ p q : Point,
      2 * (midpoint p q).1 ≤ p.1 + q.1 ∧
      p.1 + q.1 < 2 * (midpoint p q).1 + 2 ∧
      2 * (midpoint p q).2 ≤ p.2 + q.2 ∧
      p.2 + q.2 < 2 * (midpoint p q).2 + 2) ∧
    midpoint (1, 1) (2, 2) = (1, 1) ∧
    midpoint (0, 0) (-1, -1) = (-1, -1) :=
  ⟨midpoint_floor, by decide, by decide⟩

/-- C4: for every triangle and every depth `d > 0`, `draw_sierpinski`
recurses into exactly the three child triangles `(p1, m12, m31)`,
`(m12, p2, m23)`, `(m31, m23, p3)` built from the edge midpoints, each
receiving depth `d - 1`, and its trace is the concatenation of theirs. -/
theorem claim_C4_children (p1 p2 p3 : Point) (level : Int) (h : 0 < level) :
    draw_sierpinski p1 p2 p3 level =
      draw_sierpinski p1 (midpoint p1 p2) (midpoint p3 p1) (level - 1) ++
      draw_sierpinski (midpoint p1 p2) p2 (midpoint p2 p3) (level - 1) ++
      draw_sierpinski (midpoint p3 p1) (midpoint p2 p3) p3 (level - 1) :=
  draw_sierpinski_of_pos p1 p2 p3 h

/-- Witness for C4 at the concrete input `(0,0), (4,0), (0,4)` with level 1. -/
theorem claim_C4_children_witness :
    (0 : Int) < 1 ∧
    draw_sierpinski (0, 0) (4, 0) (0, 4) 1 =
      draw_sierpinski (0, 0) (midpoint (0, 0) (4, 0)) (midpoint (0, 4) (0, 0)) 0 ++
      draw_sierpinski (midpoint (0, 0) (4, 0)) (4, 0) (midpoint (4, 0) (0, 4)) 0 ++
      draw_sierpinski (midpoint (0, 4) (0, 0)) (midpoint (4, 0) (0, 4)) (0, 4) 0 :=
  ⟨by decide, claim_C4_children (0, 0) (4, 0) (0, 4) 1 (by decide)⟩

/-- C5: for every triangle and every finite non-negative depth `d`,
`draw_sierpinski` terminates (it is a total function here, defined by the
strictly decreasing measure `level.toNat` with base case at `level ≤ 0`), and
the total number of calls in the call tree, including the top-level call,
equals `(3 ^ (d + 1) - 1) / 2`. -/
theorem claim_C5_call_count (p1 p2 p3 : Point) (d : ℕ) :
    sierpinski_calls p1 p2 p3 (d : Int) = (3 ^ (d + 1) - 1) / 2 := by
  have h := sierpinski_calls_closed d p1 p2 p3
  omega

/-- C6 (counterexample): the claim fails as stated for the degenerate
starting triangle `(0,0), (0,0), (0,0)` at depth 1: the root call is an
ancestor of every leaf, its central subdivision is `((0,0),(0,0),(0,0))`, and
that very triangle is among the drawn leaf triangles. -/
theorem claim_C6_counterexample :
    central (0, 0) (0, 0) (0, 0) ∈
      (build_call_tree (0, 0) (0, 0) (0, 0) 1).leafTris ∧
    no_central_drawn (0, 0) (0, 0) (0, 0) 1 = false := by
  have h : build_call_tree ((0 : Int), (0 : Int)) (0, 0) (0, 0) 1 =
      build_call_treeNat (0, 0) (0, 0) (0, 0) 1 := by
    have h1 := build_call_tree_eq_natTree 1 (0, 0) (0, 0) (0, 0)
    simpa using h1
  constructor
  · rw [h]; decide
  · simp only [no_central_drawn]; rw [h]; decide

/-- C6 (amended): for the driver's outer triangle
`((400,50), (50,650), (750,650))` and every depth up to the driver's level 7,
the set of drawn leaf triangles never contains the central subdivision of any
internal call of the run (in particular of any ancestor of any leaf). -/
theorem claim_C6_amended (d : ℕ) (hd : d ≤ 7) :
    no_central_drawn (400, 50) (50, 650) (750, 650) (d : Int) = true := by
  interval_cases d <;>
    · simp only [no_central_drawn, build_call_tree_eq_natTree]
      exact no_central_of_scans _ (by decide) (by decide)

/-- Witness for the amended C6 at the driver's own depth 7. -/
theorem claim_C6_amended_witness :
    7 ≤ 7 ∧
    no_central_drawn (400, 50) (50, 650) (750, 650) ((7 : ℕ) : Int) = true :=
  ⟨by decide, claim_C6_amended 7 (by decide)⟩

/-- C7: the order of the three recursive calls at every subdivision step is
deterministic and is exactly corner-at-p1, then corner-at-p2, then
corner-at-p3; the sequence of drawn leaf triangles is the depth-first
traversal of the call tree in that fixed child order. -/
theorem claim_C7_dfs_order (p1 p2 p3 : Point) (level : Int) :
    draw_sierpinski p1 p2 p3 level =
      (build_call_tree p1 p2 p3 level).dfsLeaves :=
  draw_eq_dfsLeaves_aux level.toNat level le_rfl p1 p2 p3

/-- C8: two runs of `draw_sierpinski` with identical arguments on two fresh
identical surfaces produce identical output: the same sequence of
draw-polygon calls with the same vertex lists and fill colour. -/
theorem claim_C8_deterministic (s t : List PolygonCall) (p1 p2 p3 : Point)
    (level : Int) (h : s = t) :
    run_on s p1 p2 p3 level = run_on t p1 p2 p3 level := by
  rw [h]

/-- Witness for C8 on two fresh (empty) surfaces at a concrete input. -/
theorem claim_C8_deterministic_witness :
    ([] : List PolygonCall) = [] ∧
    run_on [] (0, 0) (4, 0) (0, 4) 1 = run_on [] (0, 0) (4, 0) (0, 4) 1 :=
  ⟨rfl, claim_C8_deterministic [] [] (0, 0) (4, 0) (0, 4) 1 rfl⟩

/-- C9: with the driver's constants (width 800, height 700), the outer
triangle passed to the top-level call is exactly
`((400,50), (50,650), (750,650))`, the recursion level passed is 7, and the
surface is saved exactly once, after all draw events, to the path
`sierpinski_triangle.png`. -/
theorem claim_C9_driver :
    outer_triangle_vertices = [(400, 50), (50, 650), (750, 650)] ∧
    recursion_level = 7 ∧
    main_events =
      (draw_sierpinski (400, 50) (50, 650) (750, 650) 7).map MainEvent.draw ++
        [.save "sierpinski_triangle.png"] ∧
    main_events.filter MainEvent.isSave = [.save "sierpinski_triangle.png"] ∧
    main_events.getLast? = some (.save "sierpinski_triangle.png") := by
  refine ⟨by decide, by decide, rfl, ?_, ?_⟩
  · rw [main_events, List.filter_append, filter_isSave_map_draw]
    rfl
  · rw [main_events]
    exact getLast_append_singleton _ _

/-- C10 (implicit): for every negative integer level, `draw_sierpinski`
behaves exactly as for level 0 — it draws exactly one filled black triangle
with the given three vertices, makes no recursive call, and returns; the
function is total over all integer levels. -/
theorem claim_C10_negative_level (p1 p2 p3 : Point) (level : Int)
    (h : level < 0) :
    draw_sierpinski p1 p2 p3 level = [⟨[p1, p2, p3], "black"⟩] ∧
    sierpinski_calls p1 p2 p3 level = 1 :=
  ⟨draw_sierpinski_of_nonpos _ _ _ (le_of_lt h),
   sierpinski_calls_of_nonpos _ _ _ (le_of_lt h)⟩

/-- Witness for C10 at level `-1`. -/
theorem claim_C10_negative_level_witness :
    (-1 : Int) < 0 ∧
    (draw_sierpinski (0, 0) (4, 0) (0, 4) (-1) =
        [⟨[(0, 0), (4, 0), (0, 4)], "black"⟩] ∧
      sierpinski_calls (0, 0) (4, 0) (0, 4) (-1) = 1) :=
  ⟨by decide, claim_C10_negative_level (0, 0) (4, 0) (0, 4) (-1) (by decide)⟩

end Sierpinski
